import Mathlib

/-!
# Doxyde page-hierarchy and content-versioning engine: formal model

The repository ships only the MCP test clients for the engine; the engine
itself (SlugGenerator, PageTree, ComponentStore, VersionManager) is not part
of the checked-in sources.  Every definition below is therefore modelled
from the specification, carrying an explicit `Modelled from the spec:` note.
Strings of the engine are embedded as `List Char`.
-/

/-! ## Characters and decimal rendering -/

/-- ASCII lower-case letter or digit, the only characters a slug keeps. -/
def isLowerAlnum (c : Char) : Bool :=
  (('a' ≤ c) && (c ≤ 'z')) || (('0' ≤ c) && (c ≤ '9'))

/-- Characters allowed anywhere in a slug: lower alnum or hyphen. -/
def isSlugChar (c : Char) : Bool := isLowerAlnum c || (c = '-')

/-- Hyphen test. -/
def isH (c : Char) : Bool := c = '-'

/-- Decimal digit character for a value below ten. -/
def decDigit : Nat → Char
  | 0 => '0' | 1 => '1' | 2 => '2' | 3 => '3' | 4 => '4'
  | 5 => '5' | 6 => '6' | 7 => '7' | 8 => '8' | _ => '9'

/-- Fuel-driven decimal rendering of a natural number, most significant
digit first. -/
def decAux : Nat → Nat → List Char
  | 0, _ => []
  | fuel + 1, n => if n < 10 then [decDigit n] else decAux fuel (n / 10) ++ [decDigit (n % 10)]

/-- Decimal rendering of a natural number (fuel `n+1` always suffices). -/
def dec (n : Nat) : List Char := decAux (n + 1) n

/-! ## SlugGenerator

Modelled from the spec: §4.1 `generate(title, explicit_slug?, sibling_slugs)`.
Sanitize lower-cases, replaces each run of characters outside `[a-z0-9]` by a
single hyphen, strips leading/trailing hyphens, falls back to `untitled` when
empty; the base is truncated to 100 characters with trailing hyphens
stripped; collisions with sibling slugs are resolved by appending `-2`,
`-3`, … (first integer ≥ 2 not colliding), truncating the base further so
the suffix never pushes the total length over 100. -/

/-- Lower-case a character, keep it if it is `[a-z0-9]`, mark it as `-`
otherwise. -/
def normChar (c : Char) : Char :=
  let d := c.toLower
  if isLowerAlnum d then d else '-'

/-- Collapse each run of consecutive hyphens to a single hyphen. -/
def squeeze : List Char → List Char
  | [] => []
  | [c] => [c]
  | a :: b :: r => if a = '-' && b = '-' then squeeze (b :: r) else a :: squeeze (b :: r)

/-- Drop leading hyphens. -/
def stripLead (l : List Char) : List Char := l.dropWhile isH

/-- Drop trailing hyphens. -/
def dropTrailH (l : List Char) : List Char := (l.reverse.dropWhile isH).reverse

/-- Spec §4.1 step 3: sanitize a raw title or explicit slug. -/
def sanitize (l : List Char) : List Char := dropTrailH (stripLead (squeeze (l.map normChar)))

/-- Spec §4.1 steps 1-4: sanitized base, `untitled` fallback, truncation to
100 characters with trailing hyphens stripped. -/
def baseOf (raw : List Char) : List Char :=
  let s := sanitize raw
  let s₀ := if s = [] then "untitled".data else s
  dropTrailH (s₀.take 100)

/-- Collision candidate for counter `i`: the base truncated so that the
appended `-i` suffix keeps the total length at 100 characters or less. -/
def fitCand (base : List Char) (i : Nat) : List Char :=
  base.take (100 - (dec i).length - 1) ++ '-' :: dec i

/-- Search for the first counter `i ≥ start` whose candidate is not among
the sibling slugs; when the fuel runs out the current candidate is returned
unchecked (the fuel chosen by `uniquify` makes that candidate free). -/
def firstFreeAux (base : List Char) (slugs : List (List Char)) : Nat → Nat → List Char
  | 0, i => fitCand base i
  | fuel + 1, i => if fitCand base i ∈ slugs then firstFreeAux base slugs fuel (i + 1) else fitCand base i

/-- Spec §4.1 step 5: return the base unchanged when it does not collide,
otherwise append `-2`, `-3`, … until unique. -/
def uniquify (base : List Char) (slugs : List (List Char)) : List Char :=
  if base ∈ slugs then firstFreeAux base slugs slugs.length 2 else base

/-- Spec §4.1 step 1: the raw input sanitized is the explicit slug when
given, the title otherwise. -/
def rawOf (title : List Char) (eslug : Option (List Char)) : List Char :=
  match eslug with
  | some e => e
  | none => title

/-- Modelled from the spec: §4.1 `SlugGenerator.generate`.  The engine's
slug generator is absent from the checked-in sources (only its MCP test
clients are); this follows the spec's five steps. -/
def generate (title : List Char) (eslug : Option (List Char)) (slugs : List (List Char)) : List Char :=
  uniquify (baseOf (rawOf title eslug)) slugs

/-- First character is `[a-z0-9]`. -/
def headAlnum : List Char → Bool
  | [] => false
  | c :: _ => isLowerAlnum c

/-- Last character is `[a-z0-9]`. -/
def lastAlnum (l : List Char) : Bool := headAlnum l.reverse

/-- The slug well-formedness of spec §4.1's guarantee, as a boolean: the
regular expression `[a-z0-9]([a-z0-9-]*[a-z0-9])?` holds of a string exactly
when it is non-empty, starts and ends with `[a-z0-9]`, and has every
character in `[a-z0-9-]`. -/
def validSlugB (l : List Char) : Bool :=
  headAlnum l && lastAlnum l && l.all isSlugChar

/-- Recover the value of a digit string, used to show `dec` is injective. -/
def valD (l : List Char) : Nat := l.foldl (fun a c => 10 * a + (c.toNat - 48)) 0

/-- The adversarial sibling set refuting the unrestricted guarantee: the
base `a` itself together with every candidate `a-2`, …, up to the counter
`10 ^ 98 + 1`, forcing the search past every suffix that still fits. -/
def badSibs : List (List Char) :=
  ['a'] :: (List.range (10 ^ 98)).map (fun k => fitCand ['a'] (k + 2))

/-! ## PageTree, ComponentStore and VersionManager state

Modelled from the spec: §3 data model and §9 design notes.  The tree is an
arena of pages indexed by opaque ids, each page carrying an explicit parent
id and an ordered list of child ids; components live in a store ordered per
page; the published snapshot is an association list from page id to the
copied component list. -/

/-- A page node of the arena: id, parent (none only for the root), ordered
child ids, slug, title and template. -/
structure PNode where
  pid : Nat
  parent : Option Nat
  children : List Nat
  slug : List Char
  title : List Char
  tmpl : List Char
deriving DecidableEq, Repr

/-- A draft content component: id, owning page, title, body, template. -/
structure Comp where
  cid : Nat
  page : Nat
  title : List Char
  body : List Char
  tmpl : List Char
deriving DecidableEq, Repr

/-- The error kinds of spec §7. -/
inductive Err where
  | notFound
  | invalidOperation
  | cycleDetected
  | slugConflict
  | validationError
deriving DecidableEq, Repr

/-- The whole engine state: the page arena with its distinguished root id,
the draft component store, the published snapshots, and the id counters. -/
structure St where
  nodes : List PNode
  root : Nat
  comps : List Comp
  pubs : List (Nat × List Comp)
  nextPid : Nat
  nextCid : Nat
deriving DecidableEq, Repr

/-- Arena lookup of a page by id. -/
def lookup (s : St) (x : Nat) : Option PNode :=
  s.nodes.find? (fun m => m.pid == x)

/-- Walk the parent references upward from `p`, collecting the visited ids
(`p` first); the fuel bounds the walk on ill-formed arenas. -/
def chainAux (s : St) : Nat → Nat → List Nat
  | 0, _ => []
  | fuel + 1, p =>
    p :: (match lookup s p with
      | some n =>
        match n.parent with
        | some q => chainAux s fuel q
        | none => []
      | none => [])

/-- The ancestor chain of a page: itself, its parent, …, up to the root. -/
def chain (s : St) (p : Nat) : List Nat := chainAux s (s.nodes.length + 1) p

/-- The slugs of the current children of a node. -/
def childSlugs (s : St) (n : PNode) : List (List Char) :=
  n.children.filterMap (fun c => (lookup s c).map (fun m => m.slug))

/-- Insert `x` at index `k` in `l` (at the end when `k` exceeds the
length). -/
def insAt : Nat → Nat → List Nat → List Nat
  | 0, x, l => x :: l
  | _ + 1, x, [] => [x]
  | k + 1, x, a :: l => a :: insAt k x l

/-- Spec §4.2 `move`: the requested position clamped to
`[0, new_sibling_count]`, defaulting to the end; a negative request clamps
to `0` through `Int.toNat`. -/
def clampPos (pos : Option Int) (n : Nat) : Nat :=
  match pos with
  | none => n
  | some k => min k.toNat n

/-- The per-node update of a successful move: the moved page is
re-parented, the new parent inserts it at the clamped position after any
stale occurrence is erased, every other node merely loses the page from its
child list. -/
def moveFun (pid npid : Nat) (pos : Option Int) (m : PNode) : PNode :=
  if m.pid = pid then { m with parent := some npid }
  else if m.pid = npid then
    { m with children :=
        insAt (clampPos pos (m.children.erase pid).length) pid (m.children.erase pid) }
  else { m with children := m.children.erase pid }

/-- Modelled from the spec: §4.2 `move(page_id, new_parent_id, position?)`.
The engine's PageTree is absent from the checked-in sources; per the spec
the operation fails `InvalidOperation` on the root, `NotFound` on a missing
id, `CycleDetected` when the ancestry walk from `new_parent_id` up to the
root encounters `page_id` (including equality), `SlugConflict` when the new
parent already has a child with the page's slug; on success the page leaves
its old sibling list, is re-parented, and is inserted at the clamped
position. -/
def move (s : St) (pid npid : Nat) (pos : Option Int) : Except Err St :=
  if pid = s.root then .error .invalidOperation
  else
    match lookup s pid, lookup s npid with
    | some p, some np =>
      if pid ∈ chain s npid then .error .cycleDetected
      else if p.slug ∈ childSlugs s np then .error .slugConflict
      else .ok { s with nodes := s.nodes.map (moveFun pid npid pos) }
    | _, _ => .error .notFound

/-- Collect the ids of the subtree rooted at `p` (the page itself first),
fuel-bounded. -/
def subtreeAux (s : St) : Nat → Nat → List Nat
  | 0, _ => []
  | fuel + 1, p =>
    p :: (match lookup s p with
      | some n => n.children.foldr (fun c acc => subtreeAux s fuel c ++ acc) []
      | none => [])

/-- The ids of a page and all its descendants. -/
def subtree (s : St) (p : Nat) : List Nat := subtreeAux s (s.nodes.length + 1) p

/-- Drop the deleted ids from a surviving node's child list. -/
def pruneChildren (sub : List Nat) (m : PNode) : PNode :=
  { m with children := m.children.filter (fun c => !decide (c ∈ sub)) }

/-- Modelled from the spec: §4.2 `delete(page_id)`.  Fails
`InvalidOperation` on the root and `NotFound` on a missing id; on success it
removes the entire subtree, every component owned by a deleted page, and
every published snapshot of a deleted page, and erases the deleted ids from
the surviving child lists. -/
def delete (s : St) (pid : Nat) : Except Err St :=
  if pid = s.root then .error .invalidOperation
  else
    match lookup s pid with
    | none => .error .notFound
    | some _ =>
      let sub := subtree s pid
      .ok { s with
        nodes := (s.nodes.filter (fun m => !decide (m.pid ∈ sub))).map (pruneChildren sub),
        comps := s.comps.filter (fun c => !decide (c.page ∈ sub)),
        pubs := s.pubs.filter (fun pr => !decide (pr.1 ∈ sub)) }

/-- Modelled from the spec: §4.2 `create(parent_id, title, explicit_slug?,
template)`.  Fails `NotFound` when the parent is absent; computes the slug
via the generator scoped to the parent's children, assigns the next fresh
id, and inserts the new page into the parent's child list (at the clamped
position, default end). -/
def createFun (parent nid : Nat) (pos : Option Int) (m : PNode) : PNode :=
  if m.pid = parent then
    { m with children := insAt (clampPos pos m.children.length) nid m.children }
  else m

def create (s : St) (parent : Nat) (title : List Char) (eslug : Option (List Char))
    (tmpl : List Char) (pos : Option Int) : Except Err (St × PNode) :=
  match lookup s parent with
  | none => .error .notFound
  | some pn =>
    let slug := generate title eslug (childSlugs s pn)
    let node : PNode := ⟨s.nextPid, some parent, [], slug, title, tmpl⟩
    .ok ({ s with
        nodes := (s.nodes.map (createFun parent s.nextPid pos)) ++ [node],
        nextPid := s.nextPid + 1 }, node)

/-- Spec §4.2 `get(page_id)`: the page, or `NotFound`. -/
def get_page (s : St) (x : Nat) : Except Err PNode :=
  match lookup s x with
  | some n => .ok n
  | none => .error .notFound

/-- Split the path remainder at `/` separators (an empty remainder has no
segments; empty segments are preserved so they can be rejected). -/
def splitAux : List Char → List Char → List (List Char)
  | [], acc => [acc.reverse]
  | c :: rest, acc =>
    if c = '/' then acc.reverse :: splitAux rest [] else splitAux rest (c :: acc)

/-- Walk one slug per segment from a node downward. -/
def walkSegs (s : St) : PNode → List (List Char) → Except Err PNode
  | n, [] => .ok n
  | n, seg :: rest =>
    match (n.children.filterMap (fun c => lookup s c)).find? (fun m => m.slug == seg) with
    | some c => walkSegs s c rest
    | none => .error .notFound

/-- Modelled from the spec: §4.2 `get_by_path(path)`.  A root-relative path
must start with `/`; the lone separator `/` has no segments and resolves to
the root; an empty segment is malformed (`ValidationError`, spec §7);
otherwise the walk matches one slug per segment from the root, failing
`NotFound` on an unmatched segment. -/
def get_by_path (s : St) (path : List Char) : Except Err PNode :=
  match path with
  | '/' :: rest =>
    let segs := if rest = [] then [] else splitAux rest []
    if segs.any (fun sg => sg.isEmpty) then .error .validationError
    else
      match lookup s s.root with
      | some r => walkSegs s r segs
      | none => .error .notFound
  | _ => .error .validationError

/-- The ordered draft component list of a page. -/
def draftOf (s : St) (p : Nat) : List Comp :=
  s.comps.filter (fun c => c.page == p)

/-- The published snapshot of a page; the empty sequence when never
published. -/
def pubOf (s : St) (p : Nat) : List Comp :=
  match s.pubs.find? (fun pr => pr.1 == p) with
  | some pr => pr.2
  | none => []

/-- Modelled from the spec: §4.4 `publish(page_id)`.  Copies the current
draft component list into the published snapshot, replacing any prior
snapshot; the draft itself is untouched. -/
def publish (s : St) (p : Nat) : Except Err St :=
  match lookup s p with
  | none => .error .notFound
  | some _ =>
    .ok { s with pubs := (p, draftOf s p) :: s.pubs.filter (fun pr => !(pr.1 == p)) }

/-- Modelled from the spec: §4.4 `discard_draft(page_id)`.  Replaces the
page's draft component list with a copy of the last published snapshot (or
empties it if never published). -/
def discard_draft (s : St) (p : Nat) : Except Err St :=
  match lookup s p with
  | none => .error .notFound
  | some _ =>
    .ok { s with comps := s.comps.filter (fun c => !(c.page == p)) ++ pubOf s p }

/-- Modelled from the spec: §4.3 `ComponentStore.create`, appending to the
page's draft. -/
def createComp (s : St) (p : Nat) (title body tmpl : List Char) : Except Err (St × Comp) :=
  match lookup s p with
  | none => .error .notFound
  | some _ =>
    let c : Comp := ⟨s.nextCid, p, title, body, tmpl⟩
    .ok ({ s with comps := s.comps ++ [c], nextCid := s.nextCid + 1 }, c)

/-- Modelled from the spec: §4.3 `ComponentStore.update`, mutating a draft
component in place. -/
def updateComp (s : St) (cid : Nat) (title body tmpl : List Char) : Except Err St :=
  if (s.comps.find? (fun c => c.cid == cid)).isSome then
    .ok { s with comps := s.comps.map (fun c =>
      if c.cid = cid then { c with title := title, body := body, tmpl := tmpl } else c) }
  else .error .notFound

/-! ## Structural well-formedness booleans -/

/-- The root id resolves to a parentless node. -/
def rootOKb (s : St) : Bool :=
  match lookup s s.root with
  | some n => n.parent.isNone
  | none => false

/-- No node lists the root among its children. -/
def rootNotChildb (s : St) : Bool :=
  s.nodes.all (fun n => !decide (s.root ∈ n.children))

/-- The three-page chain used to witness `C1_cycle_detected`. -/
def stC1 : St :=
  { nodes := [⟨1, none, [2], "home".data, [], []⟩,
              ⟨2, some 1, [3], "a".data, [], []⟩,
              ⟨3, some 2, [], "b".data, [], []⟩],
    root := 1, comps := [], pubs := [], nextPid := 4, nextCid := 1 }

/-- The two-page state refuting the unrestricted claim C1. -/
def stC1x : St :=
  { nodes := [⟨1, none, [2], "home".data, [], []⟩,
              ⟨2, some 1, [], "a".data, [], []⟩],
    root := 1, comps := [], pubs := [], nextPid := 3, nextCid := 1 }

/-- The three-page state used to witness `C4_root_protection`; `stC4m` and
`stC4d` are the results of a successful move and delete on it, making the
preservation implications of the witness non-vacuous. -/
def stC4 : St :=
  { nodes := [⟨1, none, [2, 3], "home".data, [], []⟩,
              ⟨2, some 1, [], "a".data, [], []⟩,
              ⟨3, some 1, [], "b".data, [], []⟩],
    root := 1, comps := [], pubs := [], nextPid := 4, nextCid := 1 }

def stC4m : St :=
  match move stC4 2 3 none with
  | .ok s => s
  | .error _ => stC4

def stC4d : St :=
  match delete stC4 2 with
  | .ok s => s
  | .error _ => stC4

/-! ## Claim C9: insertion position of a move -/

/-- The number of siblings preceding the first occurrence of `x` in a child
list. -/
def idxOf (x : Nat) : List Nat → Nat
  | [] => 0
  | a :: t => if a = x then 0 else idxOf x t + 1

/-- The state used to witness `C9_move_position`: the root holds pages 2
and 5, page 2 holds pages 3 and 4; page 5 moves under page 2 at position 1. -/
def stC9 : St :=
  { nodes := [⟨1, none, [2, 5], "home".data, [], []⟩,
              ⟨2, some 1, [3, 4], "a".data, [], []⟩,
              ⟨3, some 2, [], "b".data, [], []⟩,
              ⟨4, some 2, [], "c".data, [], []⟩,
              ⟨5, some 1, [], "d".data, [], []⟩],
    root := 1, comps := [], pubs := [], nextPid := 6, nextCid := 1 }

def stC9m : St :=
  match move stC9 5 2 (some 1) with
  | .ok s => s
  | .error _ => stC9

/-- The state used to witness `C3_cascade_delete`: page 2 with descendant
page 3 owns components 10 and 11; component 12 belongs to the root and a
snapshot of page 2 exists. -/
def stC3 : St :=
  { nodes := [⟨1, none, [2], "home".data, [], []⟩,
              ⟨2, some 1, [3], "a".data, [], []⟩,
              ⟨3, some 2, [], "b".data, [], []⟩],
    root := 1,
    comps := [⟨10, 2, [], "x".data, []⟩, ⟨11, 3, [], "y".data, []⟩, ⟨12, 1, [], "z".data, []⟩],
    pubs := [(2, [⟨10, 2, [], "x".data, []⟩])],
    nextPid := 4, nextCid := 13 }

def stC3d : St :=
  match delete stC3 2 with
  | .ok s => s
  | .error _ => stC3

/-- The state used to witness `C10_root_path`. -/
def stC10 : St :=
  { nodes := [⟨1, none, [2], "home".data, [], []⟩,
              ⟨2, some 1, [], "about".data, [], []⟩],
    root := 1, comps := [], pubs := [], nextPid := 3, nextCid := 1 }

/-! ## Claims C5 and C6: draft and published snapshots -/

/-- Every stored snapshot lists only components of its own page, the
invariant `publish` maintains. -/
def pubsWFb (s : St) : Bool :=
  s.pubs.all (fun pr => pr.2.all (fun c => c.page == pr.1))

/-- The state used to witness `C5_discard_idempotent`: page 2 has a
published snapshot of one component and a divergent draft of two. -/
def stC5 : St :=
  { nodes := [⟨1, none, [2], "home".data, [], []⟩,
              ⟨2, some 1, [], "a".data, [], []⟩],
    root := 1,
    comps := [⟨10, 2, [], "new".data, []⟩, ⟨11, 2, [], "newer".data, []⟩],
    pubs := [(2, [⟨9, 2, [], "old".data, []⟩])],
    nextPid := 3, nextCid := 12 }

def stC5a : St :=
  match discard_draft stC5 2 with
  | .ok s => s
  | .error _ => stC5

def stC5b : St :=
  match discard_draft stC5a 2 with
  | .ok s => s
  | .error _ => stC5a

/-- The state used to witness `C6_publish_snapshot`: page 2 carries one
draft component and a stale snapshot that publishing replaces. -/
def stC6 : St :=
  { nodes := [⟨1, none, [2], "home".data, [], []⟩,
              ⟨2, some 1, [], "a".data, [], []⟩],
    root := 1,
    comps := [⟨10, 2, [], "v2".data, []⟩],
    pubs := [(2, [⟨9, 2, [], "v1".data, []⟩])],
    nextPid := 3, nextCid := 11 }

def stC6p : St :=
  match publish stC6 2 with
  | .ok s => s
  | .error _ => stC6

/-! ## Claim C7: collision suffixes -/

/-- The slug of a successfully created page. -/
def slugOf7 (r : Except Err (St × PNode)) : Option (List Char) :=
  match r with
  | .ok (_, n) => some n.slug
  | .error _ => none

/-- A site with only the root page, for the duplicate-title scenario. -/
def st7 : St :=
  { nodes := [⟨1, none, [], "home".data, [], []⟩],
    root := 1, comps := [], pubs := [], nextPid := 2, nextCid := 1 }

/-- `st7` after creating the first `Test Page Without Slug` page. -/
def st7A : St :=
  match create st7 1 "Test Page Without Slug".data none [] none with
  | .ok (s, _) => s
  | .error _ => st7

/-- A site whose root already has a child with slug `custom-slug`. -/
def st7X : St :=
  { nodes := [⟨1, none, [2], "home".data, [], []⟩,
              ⟨2, some 1, [], "custom-slug".data, [], []⟩],
    root := 1, comps := [], pubs := [], nextPid := 3, nextCid := 1 }

/-! ## Decimal rendering lemmas -/

theorem decDigit_digit {n : Nat} : '0' ≤ decDigit n ∧ decDigit n ≤ '9' := by
  unfold decDigit
  split <;> exact ⟨by decide, by decide⟩

theorem decAux_digits {fuel n : Nat} {c : Char} (h : c ∈ decAux fuel n) :
    '0' ≤ c ∧ c ≤ '9' := by
  induction fuel generalizing n with
  | zero => simp [decAux] at h
  | succ fuel ih =>
    rw [decAux] at h
    split at h
    · rcases List.mem_singleton.mp h with rfl
      exact decDigit_digit
    · rcases List.mem_append.mp h with h' | h'
      · exact ih h'
      · rcases List.mem_singleton.mp h' with rfl
        exact decDigit_digit

theorem dec_digits {n : Nat} {c : Char} (h : c ∈ dec n) : '0' ≤ c ∧ c ≤ '9' :=
  decAux_digits h

theorem digit_lower_alnum {c : Char} (h : '0' ≤ c ∧ c ≤ '9') : isLowerAlnum c = true := by
  simp only [isLowerAlnum, Bool.or_eq_true, Bool.and_eq_true, decide_eq_true_eq]
  exact Or.inr h

theorem digit_not_hyphen {c : Char} (h : '0' ≤ c ∧ c ≤ '9') : isH c = false := by
  rcases h with ⟨h0, h9⟩
  simp only [isH, decide_eq_false_iff_not]
  intro hc
  subst hc
  exact absurd h0 (by decide)

theorem decAux_ne_nil {fuel n : Nat} (h : 0 < fuel) : decAux fuel n ≠ [] := by
  cases fuel with
  | zero => exact absurd h (by omega)
  | succ fuel =>
    rw [decAux]
    split
    · simp
    · simp

theorem dec_ne_nil (n : Nat) : dec n ≠ [] := decAux_ne_nil (by omega)

theorem valD_append_digit (l : List Char) (c : Char) :
    valD (l ++ [c]) = 10 * valD l + (c.toNat - 48) := by
  simp [valD, List.foldl_append]

theorem decDigit_toNat {d : Nat} (h : d < 10) : (decDigit d).toNat - 48 = d := by
  interval_cases d <;> decide

theorem valD_decAux {fuel n : Nat} (h : n < 10 ^ fuel) : valD (decAux fuel n) = n := by
  induction fuel generalizing n with
  | zero =>
    simp only [pow_zero, Nat.lt_one_iff] at h
    subst h
    simp [decAux, valD]
  | succ fuel ih =>
    rw [decAux]
    split
    · rename_i hlt
      show valD ([] ++ [decDigit n]) = n
      rw [valD_append_digit]
      simp [valD, decDigit_toNat hlt]
    · rename_i hge
      push_neg at hge
      have hdiv : n / 10 < 10 ^ fuel := by
        rw [pow_succ] at h
        omega
      rw [valD_append_digit, ih hdiv, decDigit_toNat (Nat.mod_lt _ (by omega))]
      omega

theorem n_lt_ten_pow (n : Nat) : n < 10 ^ (n + 1) := by
  calc n < n + 1 := by omega
    _ ≤ 10 ^ (n + 1) := Nat.le_of_lt (Nat.lt_pow_self (by omega) _)

theorem valD_dec (n : Nat) : valD (dec n) = n := valD_decAux (n_lt_ten_pow n)

theorem dec_injective : Function.Injective dec := by
  intro a b h
  calc a = valD (dec a) := (valD_dec a).symm
    _ = valD (dec b) := by rw [h]
    _ = b := valD_dec b

theorem decAux_length_le {fuel n k : Nat} (hk : 1 ≤ k) (h : n < 10 ^ k) :
    (decAux fuel n).length ≤ k := by
  induction fuel generalizing n k with
  | zero => simp [decAux]
  | succ fuel ih =>
    rw [decAux]
    split
    · simpa using hk
    · rename_i hge
      push_neg at hge
      have hk2 : 2 ≤ k := by
        by_contra hcon
        push_neg at hcon
        have : k = 1 := by omega
        subst this
        simp only [pow_one] at h
        omega
      have hdiv : n / 10 < 10 ^ (k - 1) := by
        have : 10 ^ k = 10 ^ (k - 1) * 10 := by
          conv_lhs => rw [show k = (k - 1) + 1 by omega]
          rw [pow_succ]
        omega
      have := ih (k := k - 1) (by omega) hdiv
      simp only [List.length_append, List.length_cons, List.length_nil]
      omega

theorem dec_length_le {n k : Nat} (hk : 1 ≤ k) (h : n < 10 ^ k) : (dec n).length ≤ k :=
  decAux_length_le hk h

theorem decAux_length_ge {fuel n k : Nat} (hfuel : n < 10 ^ fuel) (h : 10 ^ k ≤ n) :
    k + 1 ≤ (decAux fuel n).length := by
  induction fuel generalizing n k with
  | zero =>
    simp only [pow_zero, Nat.lt_one_iff] at hfuel
    subst hfuel
    have : (1 : Nat) ≤ 0 := le_trans (Nat.one_le_pow _ _ (by omega)) h
    omega
  | succ fuel ih =>
    rw [decAux]
    split
    · rename_i hlt
      have : k = 0 := by
        by_contra hcon
        have : 10 ≤ 10 ^ k := by
          calc (10 : Nat) = 10 ^ 1 := (pow_one 10).symm
            _ ≤ 10 ^ k := Nat.pow_le_pow_right (by omega) (by omega)
        omega
      subst this
      simp
    · rename_i hge
      push_neg at hge
      cases k with
      | zero =>
        simp only [List.length_append, List.length_cons, List.length_nil]
        omega
      | succ k =>
        have hdiv1 : n / 10 < 10 ^ fuel := by
          rw [pow_succ] at hfuel
          omega
        have hdiv2 : 10 ^ k ≤ n / 10 := by
          rw [pow_succ] at h
          omega
        have := ih hdiv1 hdiv2
        simp only [List.length_append, List.length_cons, List.length_nil]
        omega

theorem dec_length_ge {n k : Nat} (h : 10 ^ k ≤ n) : k + 1 ≤ (dec n).length :=
  decAux_length_ge (n_lt_ten_pow n) h

/-! ## Sanitize pipeline lemmas -/

theorem head?_mem {α : Type} {l : List α} {c : α} (h : l.head? = some c) : c ∈ l := by
  cases l with
  | nil => simp at h
  | cons a t =>
    rw [List.head?_cons, Option.some_inj] at h
    subst h
    exact List.mem_cons_self _ _

theorem getLast?_mem {α : Type} {l : List α} {c : α} (h : l.getLast? = some c) : c ∈ l := by
  have h' : l.reverse.head? = some c := by rwa [List.head?_reverse]
  exact List.mem_reverse.mp (head?_mem h')

theorem headAlnum_of_head? {l : List Char} {c : Char} (h : l.head? = some c)
    (hc : isLowerAlnum c = true) : headAlnum l = true := by
  cases l with
  | nil => simp at h
  | cons a t =>
    rw [List.head?_cons, Option.some_inj] at h
    subst h
    exact hc

theorem headAlnum_head? {l : List Char} (h : headAlnum l = true) :
    ∃ c, l.head? = some c ∧ isLowerAlnum c = true := by
  cases l with
  | nil => simp [headAlnum] at h
  | cons a t => exact ⟨a, List.head?_cons, h⟩

theorem lastAlnum_of_getLast? {l : List Char} {c : Char} (h : l.getLast? = some c)
    (hc : isLowerAlnum c = true) : lastAlnum l = true :=
  headAlnum_of_head? (by rwa [List.head?_reverse]) hc

theorem dropWhile_head_false {p : Char → Bool} {l : List Char} {c : Char}
    (h : (l.dropWhile p).head? = some c) : p c = false := by
  induction l with
  | nil => simp [List.dropWhile] at h
  | cons a t ih =>
    rw [List.dropWhile] at h
    split at h
    · exact ih h
    · rename_i hpa
      rw [List.head?_cons, Option.some_inj] at h
      subst h
      exact hpa

theorem head?_append_left {α : Type} {l t : List α} (h : l ≠ []) :
    (l ++ t).head? = l.head? := by
  cases l with
  | nil => exact absurd rfl h
  | cons a r => simp

theorem exists_dropTrailH_append (l : List Char) : ∃ t, l = dropTrailH l ++ t := by
  refine ⟨(l.reverse.takeWhile isH).reverse, ?_⟩
  have h := List.takeWhile_append_dropWhile isH l.reverse
  calc l = l.reverse.reverse := (List.reverse_reverse l).symm
    _ = (l.reverse.takeWhile isH ++ l.reverse.dropWhile isH).reverse := by rw [h]
    _ = dropTrailH l ++ (l.reverse.takeWhile isH).reverse := by
        rw [List.reverse_append]; rfl

theorem mem_dropTrailH {l : List Char} {c : Char} (h : c ∈ dropTrailH l) : c ∈ l := by
  obtain ⟨t, ht⟩ := exists_dropTrailH_append l
  rw [ht]
  exact List.mem_append.mpr (Or.inl h)

theorem dropTrailH_length_le (l : List Char) : (dropTrailH l).length ≤ l.length := by
  obtain ⟨t, ht⟩ := exists_dropTrailH_append l
  conv_rhs => rw [ht]
  simp

theorem dropTrailH_getLast_false {l : List Char} {c : Char}
    (h : (dropTrailH l).getLast? = some c) : isH c = false := by
  rw [dropTrailH, List.getLast?_reverse] at h
  exact dropWhile_head_false h

theorem dropTrailH_head? {l : List Char} (h : dropTrailH l ≠ []) :
    (dropTrailH l).head? = l.head? := by
  obtain ⟨t, ht⟩ := exists_dropTrailH_append l
  conv_rhs => rw [ht]
  rw [head?_append_left h]

theorem dropTrailH_ne_nil {l : List Char} {c : Char} (hc : c ∈ l) (hh : isH c = false) :
    dropTrailH l ≠ [] := by
  intro hnil
  have : l.reverse.dropWhile isH = [] := by
    have := congrArg List.reverse hnil
    rwa [dropTrailH, List.reverse_reverse, List.reverse_nil] at this
  have := List.dropWhile_eq_nil_iff.mp this c (List.mem_reverse.mpr hc)
  rw [hh] at this
  exact Bool.false_ne_true this

theorem mem_squeeze {l : List Char} {c : Char} (h : c ∈ squeeze l) : c ∈ l := by
  induction l with
  | nil => simp [squeeze] at h
  | cons a t ih =>
    cases t with
    | nil => simpa [squeeze] using h
    | cons b r =>
      rw [squeeze] at h
      split at h
      · exact List.mem_cons_of_mem a (ih h)
      · rcases List.mem_cons.mp h with rfl | h'
        · exact List.mem_cons_self _ _
        · exact List.mem_cons_of_mem a (ih h')

theorem normChar_slug (c : Char) : isSlugChar (normChar c) = true := by
  show isSlugChar (if isLowerAlnum c.toLower then c.toLower else '-') = true
  split
  · rename_i h
    simp [isSlugChar, h]
  · decide

theorem slugChar_not_h {c : Char} (h1 : isSlugChar c = true) (h2 : isH c = false) :
    isLowerAlnum c = true := by
  simp only [isSlugChar, Bool.or_eq_true] at h1
  rcases h1 with h | h
  · exact h
  · simp only [isH, decide_eq_false_iff_not] at h2
    simp only [decide_eq_true_eq] at h
    exact absurd h h2

theorem mem_sanitize {raw : List Char} {c : Char} (h : c ∈ sanitize raw) :
    isSlugChar c = true := by
  have h1 : c ∈ stripLead (squeeze (raw.map normChar)) := mem_dropTrailH h
  have h2 : c ∈ squeeze (raw.map normChar) := by
    have hd := List.takeWhile_append_dropWhile isH (squeeze (raw.map normChar))
    rw [← hd]
    exact List.mem_append.mpr (Or.inr h1)
  have h3 : c ∈ raw.map normChar := mem_squeeze h2
  obtain ⟨a, _, ha⟩ := List.mem_map.mp h3
  rw [← ha]
  exact normChar_slug a

theorem sanitize_head_false {raw : List Char} {c : Char}
    (h : (sanitize raw).head? = some c) : isH c = false := by
  have hne : sanitize raw ≠ [] := by
    intro hnil
    rw [hnil] at h
    simp at h
  rw [sanitize, dropTrailH_head? hne] at h
  exact dropWhile_head_false h

theorem sanitize_getLast_false {raw : List Char} {c : Char}
    (h : (sanitize raw).getLast? = some c) : isH c = false :=
  dropTrailH_getLast_false h

theorem head?_take {α : Type} {l : List α} {n : Nat} (h : 0 < n) :
    (l.take n).head? = l.head? := by
  cases l with
  | nil => simp
  | cons a t =>
    cases n with
    | zero => omega
    | succ n => simp

theorem baseOf_eq_of_nil {raw : List Char} (h : sanitize raw = []) :
    baseOf raw = dropTrailH ("untitled".data.take 100) := by
  simp only [baseOf, h, if_pos rfl]
  rfl

theorem baseOf_eq_of_ne_nil {raw : List Char} (h : sanitize raw ≠ []) :
    baseOf raw = dropTrailH ((sanitize raw).take 100) := by
  simp only [baseOf, if_neg h]

/-- All the facts about the base needed for the guarantee: it is a valid
slug of length at most 100. -/
theorem baseOf_spec (raw : List Char) :
    validSlugB (baseOf raw) = true ∧ (baseOf raw).length ≤ 100 := by
  by_cases hs : sanitize raw = []
  · rw [baseOf_eq_of_nil hs]
    decide
  · rw [baseOf_eq_of_ne_nil hs]
    obtain ⟨c₀, hc₀⟩ : ∃ c, (sanitize raw).head? = some c := by
      cases hh : (sanitize raw).head? with
      | none => exact absurd (List.head?_eq_none_iff.mp hh) hs
      | some c => exact ⟨c, rfl⟩
    have hc₀h : isH c₀ = false := sanitize_head_false hc₀
    have hthead : ((sanitize raw).take 100).head? = some c₀ := by
      rw [head?_take (by omega)]
      exact hc₀
    have hc₀t : c₀ ∈ (sanitize raw).take 100 := head?_mem hthead
    have hbne : dropTrailH ((sanitize raw).take 100) ≠ [] := dropTrailH_ne_nil hc₀t hc₀h
    have hmem_s : ∀ c ∈ dropTrailH ((sanitize raw).take 100), isSlugChar c = true := by
      intro c hc
      exact mem_sanitize (List.mem_of_mem_take (mem_dropTrailH hc))
    constructor
    · rw [validSlugB]
      have h1 : headAlnum (dropTrailH ((sanitize raw).take 100)) = true := by
        refine headAlnum_of_head? (c := c₀) ?_ ?_
        · rw [dropTrailH_head? hbne]
          exact hthead
        · exact slugChar_not_h (mem_sanitize (List.mem_of_mem_take hc₀t)) hc₀h
      have h2 : lastAlnum (dropTrailH ((sanitize raw).take 100)) = true := by
        obtain ⟨c₁, hc₁⟩ : ∃ c, (dropTrailH ((sanitize raw).take 100)).getLast? = some c := by
          cases hh : (dropTrailH ((sanitize raw).take 100)).getLast? with
          | none => exact absurd (List.getLast?_eq_none_iff.mp hh) hbne
          | some c => exact ⟨c, rfl⟩
        exact lastAlnum_of_getLast? hc₁
          (slugChar_not_h (hmem_s c₁ (getLast?_mem hc₁)) (dropTrailH_getLast_false hc₁))
      have h3 : (dropTrailH ((sanitize raw).take 100)).all isSlugChar = true :=
        List.all_eq_true.mpr hmem_s
      rw [h1, h2, h3]
      rfl
    · calc (dropTrailH ((sanitize raw).take 100)).length
          ≤ ((sanitize raw).take 100).length := dropTrailH_length_le _
        _ ≤ 100 := by rw [List.length_take]; omega

/-! ## Collision candidates -/

theorem validSlugB_ne_nil {l : List Char} (h : validSlugB l = true) : l ≠ [] := by
  intro hnil
  rw [hnil] at h
  simp [validSlugB, headAlnum] at h

/-- A valid base with a short enough counter yields a valid candidate of
length at most 100. -/
theorem fitCand_valid {b : List Char} (hb : validSlugB b = true) (hlen : b.length ≤ 100)
    {i : Nat} (hd : (dec i).length ≤ 98) :
    validSlugB (fitCand b i) = true ∧ (fitCand b i).length ≤ 100 := by
  have hb' := hb
  rw [validSlugB, Bool.and_eq_true, Bool.and_eq_true] at hb'
  obtain ⟨⟨hhead, _⟩, hallb⟩ := hb'
  have hall : ∀ c ∈ b, isSlugChar c = true := List.all_eq_true.mp hallb
  have hbne : b ≠ [] := validSlugB_ne_nil hb
  have hm : 1 ≤ 100 - (dec i).length - 1 := by omega
  have htne : b.take (100 - (dec i).length - 1) ≠ [] := by
    cases b with
    | nil => exact absurd rfl hbne
    | cons a t =>
      cases hmm : 100 - (dec i).length - 1 with
      | zero => omega
      | succ m => simp
  constructor
  · rw [validSlugB]
    have h1 : headAlnum (fitCand b i) = true := by
      obtain ⟨c, hc, hca⟩ := headAlnum_head? hhead
      refine headAlnum_of_head? (c := c) ?_ hca
      rw [fitCand, head?_append_left htne, head?_take (by omega)]
      exact hc
    have h2 : lastAlnum (fitCand b i) = true := by
      obtain ⟨c₁, hc₁⟩ : ∃ c, (dec i).getLast? = some c := by
        cases hh : (dec i).getLast? with
        | none => exact absurd (List.getLast?_eq_none_iff.mp hh) (dec_ne_nil i)
        | some c => exact ⟨c, rfl⟩
      have hlast : (fitCand b i).getLast? = some c₁ := by
        rw [fitCand, List.getLast?_append]
        have hmid : ('-' :: dec i).getLast? = some c₁ := by
          cases hdd : dec i with
          | nil => exact absurd hdd (dec_ne_nil i)
          | cons x xs =>
            rw [List.getLast?_cons_cons]
            rw [hdd] at hc₁
            exact hc₁
        rw [hmid]
        rfl
      exact lastAlnum_of_getLast? hlast (digit_lower_alnum (dec_digits (getLast?_mem hc₁)))
    have h3 : (fitCand b i).all isSlugChar = true := by
      rw [List.all_eq_true]
      intro c hc
      rcases List.mem_append.mp hc with h' | h'
      · exact hall c (List.mem_of_mem_take h')
      · rcases List.mem_cons.mp h' with rfl | h''
        · decide
        · simp only [isSlugChar, Bool.or_eq_true]
          exact Or.inl (digit_lower_alnum (dec_digits h''))
    rw [h1, h2, h3]
    rfl
  · rw [fitCand]
    simp only [List.length_append, List.length_cons, List.length_take]
    have : min (100 - (dec i).length - 1) b.length ≤ 100 - (dec i).length - 1 :=
      min_le_left _ _
    omega

theorem takeWhile_all_stop {p : Char → Bool} {u v : List Char} {y : Char}
    (hu : ∀ c ∈ u, p c = true) (hy : p y = false) :
    (u ++ y :: v).takeWhile p = u := by
  induction u with
  | nil =>
    simp only [List.nil_append, List.takeWhile]
    rw [hy]
  | cons a t ih =>
    have ha : p a = true := hu a (List.mem_cons_self _ _)
    simp only [List.cons_append, List.takeWhile, ha]
    exact congrArg (List.cons a) (ih fun c hc => hu c (List.mem_cons_of_mem a hc))

theorem fitCand_injective (b : List Char) : Function.Injective (fitCand b) := by
  intro i j h
  have hrev : (fitCand b i).reverse = (fitCand b j).reverse := by rw [h]
  have hshape : ∀ k : Nat, (fitCand b k).reverse
      = (dec k).reverse ++ '-' :: (b.take (100 - (dec k).length - 1)).reverse := by
    intro k
    rw [fitCand, List.reverse_append, List.reverse_cons]
    rw [List.append_assoc, List.singleton_append]
  rw [hshape i, hshape j] at hrev
  have hdig : ∀ k : Nat, ∀ c ∈ (dec k).reverse, (fun c => !isH c) c = true := by
    intro k c hc
    have := digit_not_hyphen (dec_digits (List.mem_reverse.mp hc))
    simp [this]
  have hhy : (fun c => !isH c) '-' = false := by decide
  have hi := @takeWhile_all_stop (fun c => !isH c) (dec i).reverse
    (b.take (100 - (dec i).length - 1)).reverse '-' (hdig i) hhy
  have hj := @takeWhile_all_stop (fun c => !isH c) (dec j).reverse
    (b.take (100 - (dec j).length - 1)).reverse '-' (hdig j) hhy
  have hij : (dec i).reverse = (dec j).reverse := by
    rw [← hi, ← hj, hrev]
  exact dec_injective (List.reverse_injective hij)

/-! ## The collision search -/

theorem firstFreeAux_found {b : List Char} {slugs : List (List Char)} :
    ∀ fuel i j, i ≤ j → j < i + fuel → fitCand b j ∉ slugs →
    (∀ k, i ≤ k → k < j → fitCand b k ∈ slugs) →
    firstFreeAux b slugs fuel i = fitCand b j := by
  intro fuel
  induction fuel with
  | zero => intro i j hij hj _ _; omega
  | succ fuel ih =>
    intro i j hij hj hfree htaken
    rw [firstFreeAux]
    by_cases hi : fitCand b i ∈ slugs
    · have hlt : i < j := by
        rcases Nat.lt_or_ge i j with h' | h'
        · exact h'
        · have : i = j := by omega
          subst this
          exact absurd hi hfree
      rw [if_pos hi]
      exact ih (i + 1) j (by omega) (by omega) hfree
        (fun k hk1 hk2 => htaken k (by omega) hk2)
    · rw [if_neg hi]
      have : i = j := by
        rcases Nat.lt_or_ge i j with h' | h'
        · exact absurd (htaken i (le_refl i) h') hi
        · omega
      rw [this]

theorem firstFreeAux_all_taken {b : List Char} {slugs : List (List Char)} :
    ∀ fuel i, (∀ k, i ≤ k → k < i + fuel → fitCand b k ∈ slugs) →
    firstFreeAux b slugs fuel i = fitCand b (i + fuel) := by
  intro fuel
  induction fuel with
  | zero => intro i _; rfl
  | succ fuel ih =>
    intro i htaken
    rw [firstFreeAux, if_pos (htaken i (le_refl i) (by omega))]
    rw [ih (i + 1) (fun k hk1 hk2 => htaken k (by omega) (by omega))]
    congr 1
    omega

/-- Pigeonhole: among the `slugs.length + 1` pairwise distinct candidates
with counters `2, …, slugs.length + 2` at least one avoids `slugs`. -/
theorem exists_free_cand (b : List Char) (slugs : List (List Char)) :
    ∃ j, 2 ≤ j ∧ j ≤ slugs.length + 2 ∧ fitCand b j ∉ slugs := by
  by_contra hcon
  push_neg at hcon
  have htaken : ∀ j, 2 ≤ j → j ≤ slugs.length + 2 → fitCand b j ∈ slugs := hcon
  have hinj : Function.Injective (fun k : Nat => fitCand b (k + 2)) := by
    intro x y hxy
    have := fitCand_injective b hxy
    omega
  have hnodup : ((List.range (slugs.length + 1)).map (fun k => fitCand b (k + 2))).Nodup :=
    (List.nodup_range _).map hinj
  have hsub : ((List.range (slugs.length + 1)).map (fun k => fitCand b (k + 2))).toFinset
      ⊆ slugs.toFinset := by
    intro x hx
    rw [List.mem_toFinset] at hx ⊢
    obtain ⟨k, hk, rfl⟩ := List.mem_map.mp hx
    rw [List.mem_range] at hk
    exact htaken (k + 2) (by omega) (by omega)
  have hcard : slugs.length + 1 ≤ slugs.length := by
    calc slugs.length + 1
        = ((List.range (slugs.length + 1)).map (fun k => fitCand b (k + 2))).length := by
          rw [List.length_map, List.length_range]
      _ = ((List.range (slugs.length + 1)).map (fun k => fitCand b (k + 2))).toFinset.card :=
          (List.toFinset_card_of_nodup hnodup).symm
      _ ≤ slugs.toFinset.card := Finset.card_le_card hsub
      _ ≤ slugs.length := List.toFinset_card_le slugs
  omega

/-- The collision branch returns the candidate of the least free counter
`j ≥ 2`, and that counter stays at most `slugs.length + 2`. -/
theorem uniquify_collision {b : List Char} {slugs : List (List Char)} (hmem : b ∈ slugs) :
    ∃ j, 2 ≤ j ∧ j ≤ slugs.length + 2 ∧
      uniquify b slugs = fitCand b j ∧ fitCand b j ∉ slugs ∧
      (∀ i, 2 ≤ i → i < j → fitCand b i ∈ slugs) := by
  obtain ⟨w, hw2, hwle, hwfree⟩ := exists_free_cand b slugs
  have hex : ∃ k, fitCand b (k + 2) ∉ slugs := ⟨w - 2, by
    have : w - 2 + 2 = w := by omega
    rw [this]
    exact hwfree⟩
  set k₀ := Nat.find hex with hk₀
  have hk₀free : fitCand b (k₀ + 2) ∉ slugs := Nat.find_spec hex
  have hk₀min : ∀ k < k₀, fitCand b (k + 2) ∈ slugs := by
    intro k hk
    by_contra hcon
    exact absurd (Nat.find_min' hex hcon) (by omega)
  have hk₀le : k₀ ≤ slugs.length := by
    have : k₀ ≤ w - 2 := Nat.find_min' hex (by
      have : w - 2 + 2 = w := by omega
      rw [this]
      exact hwfree)
    omega
  refine ⟨k₀ + 2, by omega, by omega, ?_, hk₀free, ?_⟩
  · rw [uniquify, if_pos hmem]
    rcases Nat.lt_or_ge (k₀ + 2) (2 + slugs.length) with hlt | hge
    · exact firstFreeAux_found slugs.length 2 (k₀ + 2) (by omega) hlt hk₀free
        (fun k hk1 hk2 => by
          have : k - 2 < k₀ := by omega
          have := hk₀min (k - 2) this
          have hkk : k - 2 + 2 = k := by omega
          rwa [hkk] at this)
    · have hk₀eq : k₀ = slugs.length := by omega
      rw [firstFreeAux_all_taken slugs.length 2 (fun k hk1 hk2 => by
        have : k - 2 < k₀ := by omega
        have := hk₀min (k - 2) this
        have hkk : k - 2 + 2 = k := by omega
        rwa [hkk] at this)]
      congr 1
      omega
  · intro i hi2 hij
    have : i - 2 < k₀ := by omega
    have := hk₀min (i - 2) this
    have hkk : i - 2 + 2 = i := by omega
    rwa [hkk] at this

/-! ## Claim C2: the slug-generation guarantee -/

/-- C2 (amended): for every title, every optional explicit slug, and every
sibling-slug list with at most `10 ^ 98 - 3` members, the slug returned by
`SlugGenerator.generate` is non-empty, at most 100 characters long, matches
`[a-z0-9]([a-z0-9-]*[a-z0-9])?` (never ends in a hyphen, even after
truncation of a long title), and is not a member of the sibling slugs.  The
size bound is forced by the counterexample `C2_cex_guarantee_fails`: with at
least `10 ^ 98 + 1` adversarial sibling slugs the spec's length-capped
suffix truncation empties the base and the slug starts with a hyphen. -/
theorem C2_slug_guarantee (title : List Char) (eslug : Option (List Char))
    (slugs : List (List Char)) (hn : slugs.length + 3 ≤ 10 ^ 98) :
    validSlugB (generate title eslug slugs) = true ∧
    (generate title eslug slugs).length ≤ 100 ∧
    generate title eslug slugs ∉ slugs ∧
    generate title eslug slugs ≠ [] := by
  obtain ⟨hvb, hlb⟩ := baseOf_spec (rawOf title eslug)
  rw [generate]
  by_cases hmem : baseOf (rawOf title eslug) ∈ slugs
  · obtain ⟨j, hj2, hjle, hequ, hfree, _⟩ := uniquify_collision hmem
    rw [hequ]
    have hj98 : j < 10 ^ 98 := by omega
    have hd : (dec j).length ≤ 98 := dec_length_le (by omega) hj98
    obtain ⟨hv, hl⟩ := fitCand_valid hvb hlb hd
    exact ⟨hv, hl, hfree, validSlugB_ne_nil hv⟩
  · rw [uniquify, if_neg hmem]
    exact ⟨hvb, hlb, hmem, validSlugB_ne_nil hvb⟩

/-- Witness for `C2_slug_guarantee` at a concrete input. -/
theorem C2_slug_guarantee_witness :
    validSlugB (generate "Hello World!".data none ["hello-world".data]) = true ∧
    (generate "Hello World!".data none ["hello-world".data]).length ≤ 100 ∧
    generate "Hello World!".data none ["hello-world".data] ∉ ["hello-world".data] ∧
    generate "Hello World!".data none ["hello-world".data] ≠ [] :=
  C2_slug_guarantee "Hello World!".data none ["hello-world".data] (by norm_num)

theorem dec_big_length : (dec (10 ^ 98 + 2)).length = 99 := by
  have h1 : (1 : Nat) ≤ 10 ^ 98 := Nat.one_le_pow _ _ (by omega)
  have h99 : (10 : Nat) ^ 99 = 10 * 10 ^ 98 := by
    rw [pow_succ]
    ring
  apply le_antisymm
  · exact dec_length_le (by omega) (by omega)
  · exact dec_length_ge (by omega)

theorem fitCand_big : fitCand ['a'] (10 ^ 98 + 2) = '-' :: dec (10 ^ 98 + 2) := by
  rw [fitCand, dec_big_length]
  norm_num

/-- C2 counterexample: the claim as stated quantifies over every sibling
slug set; on `badSibs` the generated slug fails the regular expression
`[a-z0-9]([a-z0-9-]*[a-z0-9])?` (it starts with a hyphen), so the claim is
false without a bound on the sibling set. -/
theorem C2_cex_guarantee_fails :
    validSlugB (generate [] (some ['a']) badSibs) = false := by
  have hbase : baseOf (rawOf [] (some ['a'])) = ['a'] := by decide
  have hmem : ['a'] ∈ badSibs := List.mem_cons_self _ _
  have hlen : badSibs.length = 10 ^ 98 + 1 := by
    rw [badSibs, List.length_cons, List.length_map, List.length_range]
  have htaken : ∀ k, 2 ≤ k → k < 10 ^ 98 + 2 → fitCand ['a'] k ∈ badSibs := by
    intro k hk2 hklt
    apply List.mem_cons_of_mem
    rw [List.mem_map]
    refine ⟨k - 2, List.mem_range.mpr (by omega), ?_⟩
    show fitCand ['a'] (k - 2 + 2) = fitCand ['a'] k
    have hk : k - 2 + 2 = k := by omega
    rw [hk]
  have hfree : fitCand ['a'] (10 ^ 98 + 2) ∉ badSibs := by
    intro hmem'
    rcases List.mem_cons.mp hmem' with heq | hmap
    · rw [fitCand_big] at heq
      exact absurd (List.head_eq_of_cons_eq heq) (by decide)
    · obtain ⟨k, hk, hkeq⟩ := List.mem_map.mp hmap
      rw [List.mem_range] at hk
      have := fitCand_injective ['a'] hkeq
      omega
  have hgen : generate [] (some ['a']) badSibs = fitCand ['a'] (10 ^ 98 + 2) := by
    rw [generate, hbase, uniquify, if_pos hmem, hlen]
    exact firstFreeAux_found (10 ^ 98 + 1) 2 (10 ^ 98 + 2) (by omega) (by omega) hfree htaken
  rw [hgen, fitCand_big]
  have hh : headAlnum ('-' :: dec (10 ^ 98 + 2)) = false := by
    show isLowerAlnum '-' = false
    decide
  rw [validSlugB, hh]
  simp

/-! ## Claim C8: sanitization of a concrete title -/

/-- C8: sanitization lower-cases the title and replaces every run of
characters outside `[a-z0-9]` with a single hyphen, stripping leading and
trailing hyphens; on the title `What's New? Price: $99.99!` with no
colliding siblings the generated slug is exactly `what-s-new-price-99-99`. -/
theorem C8_sanitization :
    generate "What's New? Price: $99.99!".data none [] = "what-s-new-price-99-99".data ∧
    sanitize "What's New? Price: $99.99!".data = "what-s-new-price-99-99".data := by
  constructor <;> decide

/-! ## Arena lookup lemmas -/

/-- A lookup commutes with a pid-preserving per-node update. -/
theorem find?_map_pid {l : List PNode} {f : PNode → PNode}
    (hf : ∀ m, (f m).pid = m.pid) (x : Nat) :
    (l.map f).find? (fun m => m.pid == x) = (l.find? (fun m => m.pid == x)).map f := by
  induction l with
  | nil => rfl
  | cons a t ih =>
    rw [List.map_cons, List.find?_cons, List.find?_cons]
    by_cases ha : a.pid = x
    · have h1 : ((f a).pid == x) = true := by rw [hf a]; exact beq_iff_eq.mpr ha
      have h2 : (a.pid == x) = true := beq_iff_eq.mpr ha
      rw [h1, h2]
      rfl
    · have h1 : ((f a).pid == x) = false := by
        rw [hf a]
        exact beq_eq_false_iff_ne.mpr ha
      have h2 : (a.pid == x) = false := beq_eq_false_iff_ne.mpr ha
      rw [h1, h2]
      exact ih

/-- A lookup is unchanged by a filter that keeps every node carrying the
looked-up id. -/
theorem find?_filter_keep {l : List PNode} {q : PNode → Bool} {x : Nat}
    (hq : ∀ m ∈ l, m.pid = x → q m = true) :
    (l.filter q).find? (fun m => m.pid == x) = l.find? (fun m => m.pid == x) := by
  induction l with
  | nil => rfl
  | cons a t ih =>
    rw [List.filter_cons]
    by_cases hqa : q a = true
    · rw [if_pos hqa, List.find?_cons, List.find?_cons]
      cases hax : (a.pid == x) with
      | true => rfl
      | false => exact ih fun m hm hmx => hq m (List.mem_cons_of_mem a hm) hmx
    · have hax : a.pid ≠ x := fun hc => hqa (hq a (List.mem_cons_self _ _) hc)
      rw [if_neg hqa, List.find?_cons]
      rw [show (a.pid == x) = false from beq_eq_false_iff_ne.mpr hax]
      exact ih fun m hm hmx => hq m (List.mem_cons_of_mem a hm) hmx

/-- A lookup over a filter dropping every node carrying the looked-up id
finds nothing. -/
theorem find?_filter_drop {l : List PNode} {q : PNode → Bool} {x : Nat}
    (hq : ∀ m ∈ l, m.pid = x → q m = false) :
    (l.filter q).find? (fun m => m.pid == x) = none := by
  rw [List.find?_eq_none]
  intro m hm
  rw [List.mem_filter] at hm
  intro hbeq
  have hx : m.pid = x := beq_iff_eq.mp hbeq
  rw [hq m hm.1 hx] at hm
  exact Bool.false_ne_true hm.2

theorem mem_foldr_append {x : Nat} {g : Nat → List Nat} {l : List Nat} :
    x ∈ l.foldr (fun c acc => g c ++ acc) [] ↔ ∃ c ∈ l, x ∈ g c := by
  induction l with
  | nil => simp
  | cons a t ih =>
    simp only [List.foldr_cons, List.mem_append, ih, List.mem_cons]
    constructor
    · rintro (h | ⟨c, hc, hx⟩)
      · exact ⟨a, Or.inl rfl, h⟩
      · exact ⟨c, Or.inr hc, hx⟩
    · rintro ⟨c, rfl | hc, hx⟩
      · exact Or.inl hx
      · exact Or.inr ⟨c, hc, hx⟩

theorem length_filter_split {α : Type} (p : α → Bool) (l : List α) :
    (l.filter p).length + (l.filter (fun a => !p a)).length = l.length := by
  induction l with
  | nil => rfl
  | cons a t ih =>
    rw [List.filter_cons, List.filter_cons]
    cases hp : p a with
    | true =>
      rw [if_pos rfl, if_neg (by decide)]
      simp only [List.length_cons]
      omega
    | false =>
      rw [if_neg (by decide), if_pos (by decide)]
      simp only [List.length_cons]
      omega

theorem rootOKb_elim {s : St} (h : rootOKb s = true) :
    ∃ n, lookup s s.root = some n ∧ n.parent = none := by
  rw [rootOKb] at h
  cases hl : lookup s s.root with
  | none => rw [hl] at h; exact absurd h (by decide)
  | some n =>
    rw [hl] at h
    exact ⟨n, rfl, Option.isNone_iff_eq_none.mp h⟩

theorem rootOKb_intro {s : St} {n : PNode} (hl : lookup s s.root = some n)
    (hp : n.parent = none) : rootOKb s = true := by
  rw [rootOKb, hl]
  show n.parent.isNone = true
  rw [hp]
  rfl

/-- The root never appears in the subtree of a non-root page when no child
list contains it. -/
theorem root_not_mem_subtreeAux {s : St} (hrc : rootNotChildb s = true) :
    ∀ fuel p, p ≠ s.root → s.root ∉ subtreeAux s fuel p := by
  intro fuel
  induction fuel with
  | zero => intro p _ h; simp [subtreeAux] at h
  | succ fuel ih =>
    intro p hp h
    rw [subtreeAux] at h
    rcases List.mem_cons.mp h with heq | hrest
    · exact hp heq.symm
    · cases hl : lookup s p with
      | none => rw [hl] at hrest; simp at hrest
      | some n =>
        rw [hl] at hrest
        obtain ⟨c, hc, hcsub⟩ := mem_foldr_append.mp hrest
        have hn : n ∈ s.nodes := List.mem_of_find?_eq_some hl
        have hcr : c ≠ s.root := by
          intro hceq
          have := List.all_eq_true.mp hrc n hn
          rw [Bool.not_eq_true', decide_eq_false_iff_not] at this
          exact this (hceq ▸ hc)
        exact ih c hcr hcsub

/-! ## Operation inversion lemmas -/

theorem move_ok_inv {s : St} {pid npid : Nat} {pos : Option Int} {s' : St}
    (h : move s pid npid pos = .ok s') :
    pid ≠ s.root ∧ ∃ p np, lookup s pid = some p ∧ lookup s npid = some np ∧
      pid ∉ chain s npid ∧ p.slug ∉ childSlugs s np ∧
      s' = { s with nodes := s.nodes.map (moveFun pid npid pos) } := by
  rw [move] at h
  split at h
  · exact absurd h (by simp)
  · rename_i hroot
    split at h
    · rename_i p np hp hnp
      split at h
      · exact absurd h (by simp)
      · split at h
        · exact absurd h (by simp)
        · rename_i hcyc hslug
          refine ⟨hroot, p, np, hp, hnp, hcyc, hslug, ?_⟩
          exact (Except.ok.inj h).symm
    · exact absurd h (by simp)

theorem delete_ok_inv {s : St} {pid : Nat} {s' : St} (h : delete s pid = .ok s') :
    pid ≠ s.root ∧ ∃ n, lookup s pid = some n ∧
      s' = { s with
        nodes := (s.nodes.filter (fun m => !decide (m.pid ∈ subtree s pid))).map
          (pruneChildren (subtree s pid)),
        comps := s.comps.filter (fun c => !decide (c.page ∈ subtree s pid)),
        pubs := s.pubs.filter (fun pr => !decide (pr.1 ∈ subtree s pid)) } := by
  rw [delete] at h
  split at h
  · exact absurd h (by simp)
  · rename_i hroot
    split at h
    · exact absurd h (by simp)
    · rename_i n hn
      exact ⟨hroot, n, hn, (Except.ok.inj h).symm⟩

theorem create_ok_inv {s : St} {parent : Nat} {title : List Char}
    {eslug : Option (List Char)} {tmpl : List Char} {pos : Option Int}
    {s' : St} {nd : PNode} (h : create s parent title eslug tmpl pos = .ok (s', nd)) :
    ∃ pn, lookup s parent = some pn ∧
      s' = { s with
        nodes := (s.nodes.map (createFun parent s.nextPid pos)) ++ [nd],
        nextPid := s.nextPid + 1 } ∧
      nd = ⟨s.nextPid, some parent, [],
        generate title eslug (childSlugs s pn), title, tmpl⟩ := by
  rw [create] at h
  split at h
  · exact absurd h (by simp)
  · rename_i pn hpn
    have hinj := Except.ok.inj h
    have h1 := congrArg Prod.fst hinj
    have h2 := congrArg Prod.snd hinj
    simp only at h1 h2
    rw [h2] at h1
    exact ⟨pn, hpn, h1.symm, h2.symm⟩

theorem moveFun_pid (pid npid : Nat) (pos : Option Int) (m : PNode) :
    (moveFun pid npid pos m).pid = m.pid := by
  rw [moveFun]
  split
  · rfl
  · split
    · rfl
    · rfl

theorem moveFun_parent_of_ne {pid npid : Nat} {pos : Option Int} {m : PNode}
    (h : m.pid ≠ pid) : (moveFun pid npid pos m).parent = m.parent := by
  rw [moveFun, if_neg h]
  split
  · rfl
  · rfl

theorem pruneChildren_pid (sub : List Nat) (m : PNode) :
    (pruneChildren sub m).pid = m.pid := rfl

theorem lookup_pid {s : St} {x : Nat} {n : PNode} (h : lookup s x = some n) : n.pid = x := by
  rw [lookup] at h
  have hp := @List.find?_some PNode (fun m => m.pid == x) n s.nodes h
  exact beq_iff_eq.mp hp

theorem createFun_pid (parent nid : Nat) (pos : Option Int) (m : PNode) :
    (createFun parent nid pos m).pid = m.pid := by
  rw [createFun]
  split
  · rfl
  · rfl

theorem createFun_parent (parent nid : Nat) (pos : Option Int) (m : PNode) :
    (createFun parent nid pos m).parent = m.parent := by
  rw [createFun]
  split
  · rfl
  · rfl

theorem chain_self (s : St) (p : Nat) : p ∈ chain s p := by
  rw [chain, chainAux]
  exact List.mem_cons_self _ _

theorem lookup_of_map_nodes {s s₂ : St} {f : PNode → PNode}
    (hf : ∀ m, (f m).pid = m.pid) (hnodes : s₂.nodes = s.nodes.map f) (x : Nat) :
    lookup s₂ x = (lookup s x).map f := by
  rw [lookup, lookup, hnodes]
  exact find?_map_pid hf x

/-! ## Claim C1: moving an ancestor below a descendant -/

/-- C1 (amended): for every tree state and pages `A`, `P` where `A` lies on
the ancestor chain of `P` (including `A = P`) and `A` is not the root,
`move(A, new_parent_id = P)` fails with `CycleDetected`; when `A` is the
root the move also fails, but with `InvalidOperation` (root protection is
checked first), as forced by counterexample `C1_cex_root_ancestor`.  In
this embedding a failed call returns only the error and no successor state,
so the tree — every parent, sibling order and path — is unchanged. -/
theorem C1_cycle_detected (s : St) (A P : Nat) (pos : Option Int) (a p : PNode)
    (hAr : A ≠ s.root) (hA : lookup s A = some a) (hP : lookup s P = some p)
    (hanc : A ∈ chain s P) :
    move s A P pos = .error .cycleDetected := by
  rw [move, if_neg hAr, hA, hP]
  show (if A ∈ chain s P then Except.error Err.cycleDetected
    else if a.slug ∈ childSlugs s p then Except.error Err.slugConflict
    else Except.ok { s with nodes := s.nodes.map (moveFun A P pos) }) = _
  rw [if_pos hanc]

/-- Witness for `C1_cycle_detected`: moving page 2 (the parent of page 3)
under page 3 fails with `CycleDetected`. -/
theorem C1_cycle_detected_witness : move stC1 2 3 none = .error .cycleDetected :=
  C1_cycle_detected stC1 2 3 none
    ⟨2, some 1, [3], "a".data, [], []⟩ ⟨3, some 2, [], "b".data, [], []⟩
    (by decide) (by decide) (by decide) (by decide)

/-- C1 counterexample: the root (page 1) is an ancestor of page 2, yet
`move(1, new_parent_id = 2)` fails with `InvalidOperation`, not
`CycleDetected` — root protection takes precedence, so the claim as stated
(which quantifies over every ancestor pair, including the root) is false. -/
theorem C1_cex_root_ancestor :
    (1 ∈ chain stC1x 2) ∧ move stC1x 1 2 none = .error .invalidOperation ∧
    move stC1x 1 2 none ≠ .error .cycleDetected := by
  have hmv : move stC1x 1 2 none = .error .invalidOperation := by rfl
  refine ⟨by decide, hmv, ?_⟩
  rw [hmv]
  intro h
  exact absurd (Except.error.inj h) (by decide)

/-! ## Claim C4: root protection -/

/-- C4: for every tree state whose root id resolves to a parentless node
that no child list contains, moving the root fails with `InvalidOperation`,
deleting the root fails with `InvalidOperation`, and every successful
`move`, `delete` or `create` preserves the root's presence and
parentlessness. -/
theorem C4_root_protection (s s₂ s₃ : St) (pid npid : Nat) (pos : Option Int)
    (ttl tpl : List Char) (esl : Option (List Char))
    (hroot : rootOKb s = true) (hrnc : rootNotChildb s = true) :
    move s s.root npid pos = .error .invalidOperation ∧
    delete s s.root = .error .invalidOperation ∧
    (move s pid npid pos = .ok s₂ → rootOKb s₂ = true) ∧
    (delete s pid = .ok s₃ → rootOKb s₃ = true) ∧
    (∀ s₄ nd, create s pid ttl esl tpl pos = .ok (s₄, nd) → rootOKb s₄ = true) := by
  obtain ⟨n, hn, hpar⟩ := rootOKb_elim hroot
  refine ⟨by rw [move, if_pos rfl], by rw [delete, if_pos rfl], ?_, ?_, ?_⟩
  · intro hok
    obtain ⟨hne, p, np, _, _, _, _, hs'⟩ := move_ok_inv hok
    subst hs'
    have hl : lookup { s with nodes := s.nodes.map (moveFun pid npid pos) } s.root
        = some (moveFun pid npid pos n) := by
      rw [lookup_of_map_nodes (moveFun_pid pid npid pos) rfl, hn]
      rfl
    exact rootOKb_intro hl
      (by rw [moveFun_parent_of_ne (by rw [lookup_pid hn]; exact fun hc => hne hc.symm)]
          exact hpar)
  · intro hok
    obtain ⟨hne, m, hm, hs'⟩ := delete_ok_inv hok
    subst hs'
    have hrs : s.root ∉ subtree s pid := root_not_mem_subtreeAux hrnc _ pid hne
    have hfk : (s.nodes.filter (fun m => !decide (m.pid ∈ subtree s pid))).find?
        (fun m => m.pid == s.root) = s.nodes.find? (fun m => m.pid == s.root) := by
      apply find?_filter_keep
      intro m' _ hm'
      rw [hm', decide_eq_false hrs]
      rfl
    have hl : lookup { s with
        nodes := (s.nodes.filter (fun m => !decide (m.pid ∈ subtree s pid))).map
          (pruneChildren (subtree s pid)),
        comps := s.comps.filter (fun c => !decide (c.page ∈ subtree s pid)),
        pubs := s.pubs.filter (fun pr => !decide (pr.1 ∈ subtree s pid)) } s.root
        = some (pruneChildren (subtree s pid) n) := by
      rw [lookup]
      show ((s.nodes.filter (fun m => !decide (m.pid ∈ subtree s pid))).map
        (pruneChildren (subtree s pid))).find? (fun m => m.pid == s.root) = _
      rw [find?_map_pid (pruneChildren_pid (subtree s pid)) s.root, hfk]
      rw [show s.nodes.find? (fun m => m.pid == s.root) = some n from hn]
      rfl
    exact rootOKb_intro hl hpar
  · intro s₄ nd hok
    obtain ⟨pn, hpn, hs', hnd⟩ := create_ok_inv hok
    subst hs'
    have hl : lookup { s with
        nodes := (s.nodes.map (createFun pid s.nextPid pos)) ++ [nd],
        nextPid := s.nextPid + 1 } s.root
        = some (createFun pid s.nextPid pos n) := by
      rw [lookup]
      show ((s.nodes.map (createFun pid s.nextPid pos)) ++ [nd]).find?
        (fun m => m.pid == s.root) = _
      rw [List.find?_append, find?_map_pid (createFun_pid pid s.nextPid pos) s.root]
      rw [show s.nodes.find? (fun m => m.pid == s.root) = some n from hn]
      rfl
    apply rootOKb_intro hl
    rw [createFun_parent]
    exact hpar

/-- Witness for `C4_root_protection` on a concrete three-page tree. -/
theorem C4_root_protection_witness :
    move stC4 stC4.root 2 none = .error .invalidOperation ∧
    delete stC4 stC4.root = .error .invalidOperation ∧
    (move stC4 2 3 none = .ok stC4m → rootOKb stC4m = true) ∧
    (delete stC4 2 = .ok stC4d → rootOKb stC4d = true) ∧
    (∀ s₄ nd, create stC4 2 "T".data none [] none = .ok (s₄, nd) → rootOKb s₄ = true) :=
  C4_root_protection stC4 stC4m stC4d 2 3 none "T".data [] none (by decide) (by decide)

theorem insAt_length (x : Nat) : ∀ (k : Nat) (l : List Nat),
    (insAt k x l).length = l.length + 1 := by
  intro k l
  induction l generalizing k with
  | nil => cases k <;> rfl
  | cons a t ih =>
    cases k with
    | zero => rfl
    | succ k =>
      show (a :: insAt k x t).length = (a :: t).length + 1
      simp only [List.length_cons, ih k]

theorem idxOf_insAt {x : Nat} : ∀ {k : Nat} {l : List Nat}, x ∉ l → k ≤ l.length →
    idxOf x (insAt k x l) = k := by
  intro k l
  induction l generalizing k with
  | nil =>
    intro _ hk
    have hk0 : k = 0 := by simpa using hk
    subst hk0
    show idxOf x [x] = 0
    rw [idxOf, if_pos rfl]
  | cons a t ih =>
    intro hx hk
    have hax : a ≠ x := fun hc => hx (hc ▸ List.mem_cons_self a t)
    cases k with
    | zero =>
      show idxOf x (x :: a :: t) = 0
      rw [idxOf, if_pos rfl]
    | succ k =>
      show idxOf x (a :: insAt k x t) = k + 1
      rw [idxOf, if_neg hax]
      rw [ih (fun hc => hx (List.mem_cons_of_mem a hc)) (by simpa using hk)]

theorem clampPos_le (pos : Option Int) (n : Nat) : clampPos pos n ≤ n := by
  cases pos with
  | none => exact le_refl n
  | some k => exact min_le_right _ _

theorem moveFun_at_npid {pid npid : Nat} {pos : Option Int} {m : PNode}
    (hne : pid ≠ npid) (hm : m.pid = npid) :
    moveFun pid npid pos m =
      { m with children :=
          insAt (clampPos pos (m.children.erase pid).length) pid (m.children.erase pid) } := by
  rw [moveFun, if_neg (by rw [hm]; exact fun h => hne h.symm), if_pos hm]

theorem moveFun_at_other {pid npid : Nat} {pos : Option Int} {m : PNode}
    (hm1 : m.pid ≠ pid) (hm2 : m.pid ≠ npid) :
    moveFun pid npid pos m = { m with children := m.children.erase pid } := by
  rw [moveFun, if_neg hm1, if_neg hm2]

/-- C9: on every successful move to a new parent with `n` existing children
not containing the page, the page is inserted at the position clamped to
`[0, n]` (`clampPos`, the default `none` meaning the end and a request `k`
meaning `min (max k 0) n`), exactly that many siblings precede it
afterwards, the new sibling count is `n + 1`, and every other page's child
list merely loses the moved page — so sibling order stays the dense 0-based
sequence given by list positions. -/
theorem C9_move_position (s s' : St) (pid npid : Nat) (pos : Option Int)
    (np : PNode) (hnp : lookup s npid = some np) (hnotin : pid ∉ np.children)
    (hok : move s pid npid pos = .ok s') :
    (∃ np', lookup s' npid = some np' ∧
       np'.children = insAt (clampPos pos np.children.length) pid np.children ∧
       idxOf pid np'.children = clampPos pos np.children.length ∧
       np'.children.length = np.children.length + 1) ∧
    (∀ x xn, x ≠ pid → x ≠ npid → lookup s x = some xn →
       lookup s' x = some { xn with children := xn.children.erase pid }) := by
  obtain ⟨hne, p, np₀, hp, hnp₀, hcyc, hslug, hs'⟩ := move_ok_inv hok
  subst hs'
  have hpidne : pid ≠ npid := fun hc => hcyc (hc ▸ chain_self s npid)
  have hl := @lookup_of_map_nodes s { s with nodes := s.nodes.map (moveFun pid npid pos) }
    (moveFun pid npid pos) (moveFun_pid pid npid pos) rfl
  constructor
  · refine ⟨moveFun pid npid pos np, ?_, ?_, ?_, ?_⟩
    · rw [hl npid, hnp]
      rfl
    · rw [moveFun_at_npid hpidne (lookup_pid hnp), List.erase_of_not_mem hnotin]
    · rw [moveFun_at_npid hpidne (lookup_pid hnp), List.erase_of_not_mem hnotin]
      exact idxOf_insAt hnotin (clampPos_le pos np.children.length)
    · rw [moveFun_at_npid hpidne (lookup_pid hnp), List.erase_of_not_mem hnotin]
      exact insAt_length pid _ np.children
  · intro x xn hx1 hx2 hxn
    rw [hl x, hxn]
    show some (moveFun pid npid pos xn) = _
    rw [moveFun_at_other (by rw [lookup_pid hxn]; exact hx1) (by rw [lookup_pid hxn]; exact hx2)]

/-- Witness for `C9_move_position`: page 5 moved under page 2 at position 1
ends with exactly one sibling before it. -/
theorem C9_move_position_witness :
    (∃ np', lookup stC9m 2 = some np' ∧
       np'.children = insAt (clampPos (some 1) [3, 4].length) 5 [3, 4] ∧
       idxOf 5 np'.children = clampPos (some 1) [3, 4].length ∧
       np'.children.length = [3, 4].length + 1) ∧
    (∀ x xn, x ≠ 5 → x ≠ 2 → lookup stC9 x = some xn →
       lookup stC9m x = some { xn with children := xn.children.erase 5 }) :=
  C9_move_position stC9 stC9m 5 2 (some 1) ⟨2, some 1, [3, 4], "a".data, [], []⟩
    (by decide) (by decide) (by rfl)

/-! ## Claim C3: cascade delete -/

theorem subtree_self (s : St) (p : Nat) : p ∈ subtree s p := by
  rw [subtree, subtreeAux]
  exact List.mem_cons_self _ _

/-- C3: for every state, a successful `delete(page_id)` removes exactly the
pages of the subtree — a later `get` on any subtree page id (the page
itself included) fails `NotFound`, every other page's presence is
unchanged, the page count drops by the number of subtree pages, the
component count drops by the number of components owned by subtree pages,
and no surviving component belongs to a deleted page.  A failing `delete`
returns only the error and no successor state, so deletion is all-or-
nothing in this embedding. -/
theorem C3_cascade_delete (s s' : St) (pid : Nat) (hok : delete s pid = .ok s') :
    (∀ q ∈ subtree s pid, get_page s' q = .error .notFound) ∧
    get_page s' pid = .error .notFound ∧
    (∀ q, q ∉ subtree s pid → (lookup s' q).isSome = (lookup s q).isSome) ∧
    s'.nodes.length + (s.nodes.filter (fun m => decide (m.pid ∈ subtree s pid))).length
      = s.nodes.length ∧
    s'.comps.length + (s.comps.filter (fun c => decide (c.page ∈ subtree s pid))).length
      = s.comps.length ∧
    (∀ c ∈ s'.comps, c.page ∉ subtree s pid) := by
  obtain ⟨hne, n, hn, hs'⟩ := delete_ok_inv hok
  subst hs'
  have hgone : ∀ q ∈ subtree s pid,
      ((s.nodes.filter (fun m => !decide (m.pid ∈ subtree s pid))).map
        (pruneChildren (subtree s pid))).find? (fun m => m.pid == q) = none := by
    intro q hq
    rw [find?_map_pid (pruneChildren_pid (subtree s pid)) q]
    rw [find?_filter_drop (fun m _ hm => by rw [hm, decide_eq_true hq]; rfl)]
    rfl
  refine ⟨?_, ?_, ?_, ?_, ?_, ?_⟩
  · intro q hq
    rw [get_page, lookup]
    show (match ((s.nodes.filter (fun m => !decide (m.pid ∈ subtree s pid))).map
      (pruneChildren (subtree s pid))).find? (fun m => m.pid == q) with
      | some n => Except.ok n
      | none => Except.error Err.notFound) = _
    rw [hgone q hq]
  · rw [get_page, lookup]
    show (match ((s.nodes.filter (fun m => !decide (m.pid ∈ subtree s pid))).map
      (pruneChildren (subtree s pid))).find? (fun m => m.pid == pid) with
      | some n => Except.ok n
      | none => Except.error Err.notFound) = _
    rw [hgone pid (subtree_self s pid)]
  · intro q hq
    rw [lookup, lookup]
    show (((s.nodes.filter (fun m => !decide (m.pid ∈ subtree s pid))).map
      (pruneChildren (subtree s pid))).find? (fun m => m.pid == q)).isSome
      = (s.nodes.find? (fun m => m.pid == q)).isSome
    rw [find?_map_pid (pruneChildren_pid (subtree s pid)) q]
    rw [find?_filter_keep (fun m _ hm => by rw [hm, decide_eq_false hq]; rfl)]
    cases s.nodes.find? (fun m => m.pid == q) with
    | none => rfl
    | some m => rfl
  · show ((s.nodes.filter (fun m => !decide (m.pid ∈ subtree s pid))).map
      (pruneChildren (subtree s pid))).length + _ = _
    rw [List.length_map]
    have := length_filter_split (fun m : PNode => decide (m.pid ∈ subtree s pid)) s.nodes
    omega
  · show (s.comps.filter (fun c => !decide (c.page ∈ subtree s pid))).length + _ = _
    have := length_filter_split (fun c : Comp => decide (c.page ∈ subtree s pid)) s.comps
    omega
  · intro c hc
    have := (List.mem_filter.mp hc).2
    rw [Bool.not_eq_true', decide_eq_false_iff_not] at this
    exact this

/-- Witness for `C3_cascade_delete`: deleting page 2 of `stC3` removes
pages 2 and 3 and components 10 and 11, keeping the root's component. -/
theorem C3_cascade_delete_witness :
    (∀ q ∈ subtree stC3 2, get_page stC3d q = .error .notFound) ∧
    get_page stC3d 2 = .error .notFound ∧
    (∀ q, q ∉ subtree stC3 2 → (lookup stC3d q).isSome = (lookup stC3 q).isSome) ∧
    stC3d.nodes.length + (stC3.nodes.filter (fun m => decide (m.pid ∈ subtree stC3 2))).length
      = stC3.nodes.length ∧
    stC3d.comps.length + (stC3.comps.filter (fun c => decide (c.page ∈ subtree stC3 2))).length
      = stC3.comps.length ∧
    (∀ c ∈ stC3d.comps, c.page ∉ subtree stC3 2) :=
  C3_cascade_delete stC3 stC3d 2 (by rfl)

/-! ## Claim C10: the bare root path -/

/-- C10: `get_page_by_path` called with the bare root path `/` succeeds and
returns the root page — the lone separator yields zero path segments, so it
is neither a malformed path (`ValidationError`) nor an unmatched lookup
(`NotFound`), even though every non-root lookup walks one slug per
segment. -/
theorem C10_root_path (s : St) (r : PNode) (h : lookup s s.root = some r) :
    get_by_path s ['/'] = .ok r := by
  show (let segs := if ([] : List Char) = [] then [] else splitAux [] []
    if segs.any (fun sg => sg.isEmpty) then Except.error Err.validationError
    else match lookup s s.root with
      | some r => walkSegs s r segs
      | none => Except.error Err.notFound) = Except.ok r
  rw [if_pos rfl, if_neg (by decide), h]
  rfl

/-- Witness for `C10_root_path` on a concrete two-page site. -/
theorem C10_root_path_witness :
    get_by_path stC10 ['/'] = .ok ⟨1, none, [2], "home".data, [], []⟩ :=
  C10_root_path stC10 ⟨1, none, [2], "home".data, [], []⟩ (by decide)

theorem pubOf_pages {s : St} {p : Nat} (hwf : pubsWFb s = true) :
    ∀ c ∈ pubOf s p, c.page = p := by
  intro c hc
  rw [pubOf] at hc
  cases hf : s.pubs.find? (fun pr => pr.1 == p) with
  | none => rw [hf] at hc; simp at hc
  | some pr =>
    rw [hf] at hc
    have hpr : pr ∈ s.pubs := List.mem_of_find?_eq_some hf
    have hp1 : pr.1 = p :=
      beq_iff_eq.mp (@List.find?_some (Nat × List Comp) (fun q => q.1 == p) pr s.pubs hf)
    rw [pubsWFb] at hwf
    have := List.all_eq_true.mp (List.all_eq_true.mp hwf pr hpr) c hc
    rw [← hp1]
    exact beq_iff_eq.mp this

theorem discard_ok_inv {s : St} {p : Nat} {s' : St} (h : discard_draft s p = .ok s') :
    ∃ n, lookup s p = some n ∧
      s' = { s with comps := s.comps.filter (fun c => !(c.page == p)) ++ pubOf s p } := by
  rw [discard_draft] at h
  split at h
  · exact absurd h (by simp)
  · rename_i n hn
    exact ⟨n, hn, (Except.ok.inj h).symm⟩

theorem publish_ok_inv {s : St} {p : Nat} {s' : St} (h : publish s p = .ok s') :
    ∃ n, lookup s p = some n ∧
      s' = { s with pubs := (p, draftOf s p) :: s.pubs.filter (fun pr => !(pr.1 == p)) } := by
  rw [publish] at h
  split at h
  · exact absurd h (by simp)
  · rename_i n hn
    exact ⟨n, hn, (Except.ok.inj h).symm⟩

/-- After a successful discard the page's draft equals the published
snapshot and the snapshots themselves are untouched. -/
theorem draftOf_discard {s : St} {p : Nat} {s' : St} (hwf : pubsWFb s = true)
    (h : discard_draft s p = .ok s') :
    draftOf s' p = pubOf s p ∧ s'.pubs = s.pubs := by
  obtain ⟨n, hn, hs'⟩ := discard_ok_inv h
  subst hs'
  refine ⟨?_, rfl⟩
  rw [draftOf]
  show (s.comps.filter (fun c => !(c.page == p)) ++ pubOf s p).filter
    (fun c => c.page == p) = _
  rw [List.filter_append, List.filter_filter]
  have h1 : s.comps.filter (fun a => (a.page == p) && !(a.page == p)) = [] := by
    rw [List.filter_eq_nil_iff]
    intro a _
    cases h : (a.page == p) <;> simp [h]
  have h2 : (pubOf s p).filter (fun c => c.page == p) = pubOf s p := by
    rw [List.filter_eq_self]
    intro c hc
    exact beq_iff_eq.mpr (pubOf_pages hwf c hc)
  rw [h1, h2, List.nil_append]

/-- C5: `discard_draft` is idempotent — after a first successful discard,
a second discard leaves the draft exactly as the first did, and each call
replaces the draft with a copy of the last published snapshot (`pubOf`
returning the empty sequence when the page was never published, so the
draft is emptied in that case). -/
theorem C5_discard_idempotent (s s₁ s₂ : St) (p : Nat) (hwf : pubsWFb s = true)
    (h1 : discard_draft s p = .ok s₁) (h2 : discard_draft s₁ p = .ok s₂) :
    draftOf s₂ p = draftOf s₁ p ∧ draftOf s₁ p = pubOf s p := by
  obtain ⟨hd1, hp1⟩ := draftOf_discard hwf h1
  have hwf1 : pubsWFb s₁ = true := by
    rw [pubsWFb] at hwf ⊢
    rw [hp1]
    exact hwf
  obtain ⟨hd2, hp2⟩ := draftOf_discard hwf1 h2
  have hpub : pubOf s₁ p = pubOf s p := by rw [pubOf, pubOf, hp1]
  refine ⟨?_, hd1⟩
  rw [hd2, hpub, hd1]

/-- Witness for `C5_discard_idempotent` on `stC5`. -/
theorem C5_discard_idempotent_witness :
    draftOf stC5b 2 = draftOf stC5a 2 ∧ draftOf stC5a 2 = pubOf stC5 2 :=
  C5_discard_idempotent stC5 stC5a stC5b 2 (by decide) (by rfl) (by rfl)

theorem updateComp_pubs {s : St} {cid : Nat} {t b tp : List Char} {s' : St}
    (h : updateComp s cid t b tp = .ok s') : s'.pubs = s.pubs := by
  rw [updateComp] at h
  split at h
  · rw [← Except.ok.inj h]
  · exact absurd h (by simp)

theorem createComp_pubs {s : St} {p : Nat} {t b tp : List Char} {s' : St} {c : Comp}
    (h : createComp s p t b tp = .ok (s', c)) : s'.pubs = s.pubs := by
  rw [createComp] at h
  split at h
  · exact absurd h (by simp)
  · have h1 := congrArg Prod.fst (Except.ok.inj h)
    simp only at h1
    rw [← h1]

/-- C6: a successful `publish` copies the current draft component list into
the published snapshot, replacing any prior snapshot, and leaves the draft
itself unchanged; the copy is independent of later draft edits — after any
subsequent `updateComp` or `createComp` the published content still equals
the draft as it was at publish time. -/
theorem C6_publish_snapshot (s s' s₂ : St) (p cid : Nat) (t b tp t₂ b₂ tp₂ : List Char)
    (hok : publish s p = .ok s') :
    pubOf s' p = draftOf s p ∧
    draftOf s' p = draftOf s p ∧
    (updateComp s' cid t b tp = .ok s₂ → pubOf s₂ p = draftOf s p) ∧
    (∀ s₃ c, createComp s' p t₂ b₂ tp₂ = .ok (s₃, c) → pubOf s₃ p = draftOf s p) := by
  obtain ⟨n, hn, hs'⟩ := publish_ok_inv hok
  subst hs'
  have hfst : pubOf { s with
      pubs := (p, draftOf s p) :: s.pubs.filter (fun pr => !(pr.1 == p)) } p
      = draftOf s p := by
    rw [pubOf]
    show (match ((p, draftOf s p) ::
      s.pubs.filter (fun pr => !(pr.1 == p))).find? (fun pr => pr.1 == p) with
      | some pr => pr.2
      | none => []) = _
    rw [show ((p, draftOf s p) ::
      s.pubs.filter (fun pr => !(pr.1 == p))).find? (fun pr => pr.1 == p)
      = some (p, draftOf s p) by simp [List.find?_cons]]
  refine ⟨hfst, rfl, ?_, ?_⟩
  · intro hup
    have hpubs := updateComp_pubs hup
    rw [pubOf, hpubs]
    rw [pubOf] at hfst
    exact hfst
  · intro s₃ c hcr
    have hpubs := createComp_pubs hcr
    rw [pubOf, hpubs]
    rw [pubOf] at hfst
    exact hfst

/-- Witness for `C6_publish_snapshot` on `stC6`. -/
theorem C6_publish_snapshot_witness :
    pubOf stC6p 2 = draftOf stC6 2 ∧
    draftOf stC6p 2 = draftOf stC6 2 ∧
    (updateComp stC6p 10 [] "edited".data [] = .ok stC6 → pubOf stC6 2 = draftOf stC6 2) ∧
    (∀ s₃ c, createComp stC6p 2 [] "extra".data [] = .ok (s₃, c) →
       pubOf s₃ 2 = draftOf stC6 2) :=
  C6_publish_snapshot stC6 stC6p stC6 2 10 [] "edited".data [] [] "extra".data [] (by rfl)

/-- C7: when the sanitized base (from the title or an explicit slug)
collides with a sibling slug, the generator returns the candidate of the
first integer `j ≥ 2` whose suffixed candidate is free (every smaller
counter collides); in particular creating two pages titled `Test Page
Without Slug` under the same parent yields the distinct slugs
`test-page-without-slug` and `test-page-without-slug-2`, the second being
the base with `-2` appended, and a colliding explicit slug `custom-slug` is
suffixed to `custom-slug-2` rather than rejected. -/
theorem C7_collision_suffix (title : List Char) (eslug : Option (List Char))
    (slugs : List (List Char)) (hmem : baseOf (rawOf title eslug) ∈ slugs) :
    (∃ j, 2 ≤ j ∧ generate title eslug slugs = fitCand (baseOf (rawOf title eslug)) j ∧
       fitCand (baseOf (rawOf title eslug)) j ∉ slugs ∧
       (∀ i, 2 ≤ i → i < j → fitCand (baseOf (rawOf title eslug)) i ∈ slugs)) ∧
    slugOf7 (create st7 1 "Test Page Without Slug".data none [] none)
      = some "test-page-without-slug".data ∧
    slugOf7 (create st7A 1 "Test Page Without Slug".data none [] none)
      = some "test-page-without-slug-2".data ∧
    ("test-page-without-slug".data : List Char) ≠ "test-page-without-slug-2".data ∧
    ("test-page-without-slug-2".data : List Char)
      = "test-page-without-slug".data ++ "-2".data ∧
    slugOf7 (create st7X 1 "Custom Page".data (some "custom-slug".data) [] none)
      = some "custom-slug-2".data := by
  refine ⟨?_, by decide, by decide, by decide, by decide, by decide⟩
  obtain ⟨j, hj2, hjle, hequ, hfree, hmin⟩ := uniquify_collision hmem
  rw [generate]
  exact ⟨j, hj2, hequ, hfree, hmin⟩

/-- Witness for `C7_collision_suffix` at the sibling set `[x]` with title
`x`. -/
theorem C7_collision_suffix_witness :
    (∃ j, 2 ≤ j ∧ generate "x".data none ["x".data]
       = fitCand (baseOf (rawOf "x".data none)) j ∧
       fitCand (baseOf (rawOf "x".data none)) j ∉ ["x".data] ∧
       (∀ i, 2 ≤ i → i < j → fitCand (baseOf (rawOf "x".data none)) i ∈ ["x".data])) ∧
    slugOf7 (create st7 1 "Test Page Without Slug".data none [] none)
      = some "test-page-without-slug".data ∧
    slugOf7 (create st7A 1 "Test Page Without Slug".data none [] none)
      = some "test-page-without-slug-2".data ∧
    ("test-page-without-slug".data : List Char) ≠ "test-page-without-slug-2".data ∧
    ("test-page-without-slug-2".data : List Char)
      = "test-page-without-slug".data ++ "-2".data ∧
    slugOf7 (create st7X 1 "Custom Page".data (some "custom-slug".data) [] none)
      = some "custom-slug-2".data :=
  C7_collision_suffix "x".data none ["x".data] (by decide)

example : generate "Test Page Without Slug".data none [] = "test-page-without-slug".data := by decide

example :
    generate "Test Page Without Slug".data none ["test-page-without-slug".data]
      = "test-page-without-slug-2".data := by decide

example : generate [] none [] = "untitled".data := by decide

example : validSlugB "what-s-new-price-99-99".data = true := by decide

